import Mathlib

/-!
# WDRL (Weighted Doubly Robust Learning) — verification of the estimation engine

Shallow embedding of the WDRL estimation engine of `wdrl_sim.ipynb`.

Modelling conventions:
* Real-valued (numpy float) quantities are modelled by `ℚ`; elementwise numpy
  array arithmetic becomes `List.zipWith` operations; `ℚ` division is total
  (`x / 0 = 0`), standing in for runtime division errors in Python, which are
  treated separately by the spec-modelled error-checked variants below.
* The pluggable regression/classification models (sklearn `LinearRegression`,
  `LogisticRegression`) are external collaborators per the spec; they are
  parameters of type `LinReg` / `LogReg`: a fit takes the training matrix and
  targets and returns a predictor from a covariate row to a number.
* A data frame row carries the covariate vector `x` (the columns remaining
  after the source drops `y`, `t` and the per-treatment indicator columns),
  the outcome `y`, and the combination label `t` (a list of characters; the
  empty combination is encoded as the single character `'0'`, as in the
  source).
-/

/-- A covariate row / numeric vector. -/
abbrev Vec := List ℚ

/-- A covariate matrix, as a list of rows. -/
abbrev Mat := List Vec

/-- External linear-regressor capability: `fit(X, y)` returning a predictor. -/
abbrev LinReg := Mat → Vec → (Vec → ℚ)

/-- External probabilistic-classifier capability: `fit(X, T)` returning the
per-row probability of class 1 (`predict_proba(X)[:, 1]`). -/
abbrev LogReg := Mat → Vec → (Vec → ℚ)

/-- One unit record of the training data frame. -/
structure Row where
  x : Vec
  y : ℚ
  t : List Char
deriving DecidableEq

/-- `np.mean` of a list of rationals. -/
def mean (l : Vec) : ℚ := l.sum / l.length

/-- Dot product of two vectors (truncating, lengths agree in use). -/
def dot (a b : Vec) : ℚ := ((a.zip b).map (fun p => p.1 * p.2)).sum

/-- An affine predictor `x ↦ b + w ⬝ x`, the shape of a fitted linear
regression with coefficient vector `w` and intercept `b`. -/
def affinePred (w : Vec) (b : ℚ) : Vec → ℚ := fun x => b + dot w x

/-- Sum of squared residuals of the affine predictor `(w, b)` on data
`(X, ys)` — the objective an ordinary-least-squares fit minimises. -/
def SSE (X : Mat) (ys : Vec) (w : Vec) (b : ℚ) : ℚ :=
  ((X.zip ys).map (fun p => (p.2 - affinePred w b p.1) ^ 2)).sum

/-- Boolean-mask row selection `X[T == arm]` of numpy. -/
def selectArm {α : Type} (X : List α) (T : Vec) (arm : ℚ) : List α :=
  ((X.zip T).filter (fun p => p.2 == arm)).map Prod.fst

/-! ## Combination Enumerator (source cell: `TREATMENTS`, `all_combinations`, `C`) -/

/-- The ordered treatment set of the source: `TREATMENTS = ['A', 'B', 'C']`. -/
def TREATMENTS : List Char := ['A', 'B', 'C']

/-- `itertools.combinations(l, r)`: all length-`r` sorted selections of `l`,
in the lexicographic order of positions that `itertools` emits. -/
def combos : List Char → Nat → List (List Char)
  | _, 0 => [[]]
  | [], _ + 1 => []
  | x :: xs, r + 1 => (combos xs r).map (fun c => x :: c) ++ combos xs (r + 1)

/-- `chain.from_iterable(combinations(TREATMENTS, r) for r in range(len + 1))`,
each combination joined into a string (here: kept as a list of characters). -/
def all_combinations : List (List Char) :=
  (List.range (TREATMENTS.length + 1)).flatMap (fun r => combos TREATMENTS r)

/-- The canonical encoding of a combination in the source: the empty string becomes
the distinguished code `'0'`. -/
def encodeCombo (l : List Char) : List Char := if l = [] then ['0'] else l

/-- `C = ['0' if i == '' else i for i in all_combinations]`. -/
def C : List (List Char) := all_combinations.map encodeCombo

/-! ## The with-`k` / without-`k` split inside `calculate_ate` -/

/-- `W_k = [comb for comb in C if treatment in comb]` (the `in` test on a
one-character treatment label is character membership). -/
def W_k (Cl : List (List Char)) (treatment : Char) : List (List Char) :=
  Cl.filter (fun comb => comb.contains treatment)

/-- `S__k = [comb for comb in C if treatment not in comb]`. -/
def S__k (Cl : List (List Char)) (treatment : Char) : List (List Char) :=
  Cl.filter (fun comb => ! comb.contains treatment)

/-! ## Core pipeline functions (source cell 15) -/

/-- Elementwise numpy vector addition. -/
def vAdd (a b : Vec) : Vec := List.zipWith (· + ·) a b

/-- Elementwise numpy vector subtraction. -/
def vSub (a b : Vec) : Vec := List.zipWith (· - ·) a b

/-- Elementwise numpy vector multiplication. -/
def vMul (a b : Vec) : Vec := List.zipWith (· * ·) a b

/-- Elementwise numpy vector division. -/
def vDiv (a b : Vec) : Vec := List.zipWith (· / ·) a b

/-- Numpy broadcast `c - v` of a scalar against a vector. -/
def scalarSub (c : ℚ) (a : Vec) : Vec := a.map (fun x => c - x)

/-- `calculate_propensity_scores(X, T)`: fit the probabilistic classifier on
`(X, T)` and return `predict_proba(X)[:, 1]` — the class-1 probability of the fitted
model for every row of the same `X`, passed downstream unmodified. -/
def calculate_propensity_scores (logreg : LogReg) (X : Mat) (T : Vec) : Vec :=
  let model_t := logreg X T
  X.map model_t

/-- `calculate_doubly_robust_scores(X, y, T, ps)`: fit one outcome regression
per arm (`m0` on `X[T == 0]`, `m1` on `X[T == 1]`), predict both on all of
`X`, and combine into the doubly robust pseudo-outcome
`(m1_hat + T*(y - m1_hat)/ps) - (m0_hat + (1 - T)*(y - m0_hat)/(1 - ps))`. -/
def calculate_doubly_robust_scores (linreg : LinReg) (X : Mat) (y T ps : Vec) :
    Vec :=
  let m0 := linreg (selectArm X T 0) (selectArm y T 0)
  let m1 := linreg (selectArm X T 1) (selectArm y T 1)
  let m0_hat := X.map m0
  let m1_hat := X.map m1
  let y_dr_1 := vAdd m1_hat (vDiv (vMul T (vSub y m1_hat)) ps)
  let y_dr_0 := vAdd m0_hat (vDiv (vMul (scalarSub 1 T) (vSub y m0_hat))
    (scalarSub 1 ps))
  vSub y_dr_1 y_dr_0

/-- `compute_weighted_dr_scores(dr_scores, treatment_prob)`: keep the columns
whose label is a key of the probability table, sum the kept columns scaled by
their weights, and divide by the total kept weight. `dr_cols` is the data
frame as (column label, column) pairs; `n` is the column length (the number
of training units). -/
def compute_weighted_dr_scores (dr_cols : List (List Char × Vec))
    (treatment_prob : List Char → Option ℚ) (n : Nat) : Vec :=
  let valid_weights := dr_cols.filterMap
    (fun cw => (treatment_prob cw.1).map (fun w => (cw.2, w)))
  let weighted_sum := valid_weights.foldl
    (fun acc cw => vAdd acc (cw.1.map (fun v => v * cw.2)))
    (List.replicate n 0)
  weighted_sum.map (fun v => v / (valid_weights.map Prod.snd).sum)

/-- The per-pair loop body of `calculate_ate` for one treatment: for each
matched pair `(w_k, s__k)` of `zip(W_k, S__k)`, restrict the data frame to
rows labelled `w_k` or `s__k`, derive the binary arm indicator, compute
propensity and doubly robust scores, fit the DR regression on the restricted
covariates and apply it to the full covariate matrix. -/
def y_hat_dr_list (linreg : LinReg) (logreg : LogReg) (df_train : List Row)
    (Cl : List (List Char)) (treatment : Char) : List Vec :=
  let X := df_train.map Row.x
  ((W_k Cl treatment).zip (S__k Cl treatment)).map (fun ws =>
    let df_subset := df_train.filter (fun r => r.t == ws.1 || r.t == ws.2)
    let X_treated := df_subset.map Row.x
    let y_treated := df_subset.map Row.y
    let T_treated := df_subset.map (fun r => if r.t = ws.1 then (1 : ℚ) else 0)
    let ps := calculate_propensity_scores logreg X_treated T_treated
    let dr_scores :=
      calculate_doubly_robust_scores linreg X_treated y_treated T_treated ps
    let dr_model := linreg X_treated dr_scores
    X.map dr_model)

/-- The aggregation step of `calculate_ate` for one treatment:
`dr_df = DataFrame({w_k: scores for w_k, scores in zip(W_k, y_hat_dr_list)})`
followed by `compute_weighted_dr_scores(dr_df, treatment_prob)`. -/
def aggregated_dr_scores (linreg : LinReg) (logreg : LogReg)
    (df_train : List Row) (Cl : List (List Char))
    (treatment_prob : List Char → Option ℚ) (treatment : Char) : Vec :=
  let dr_df := (W_k Cl treatment).zip
    (y_hat_dr_list linreg logreg df_train Cl treatment)
  compute_weighted_dr_scores dr_df treatment_prob df_train.length

/-- The tail of the loop body of `calculate_ate` for one treatment: fit the
final regression of the aggregated DR score on the full covariate matrix and
report the mean of its fitted values over the full training population. -/
def ate_for_treatment (linreg : LinReg) (logreg : LogReg) (df_train : List Row)
    (Cl : List (List Char)) (treatment_prob : List Char → Option ℚ)
    (treatment : Char) : ℚ :=
  let X := df_train.map Row.x
  let ate_model :=
    linreg X (aggregated_dr_scores linreg logreg df_train Cl treatment_prob
      treatment)
  mean (X.map ate_model)

/-- `calculate_ate(df_train, C, treatment_prob, treatments)`: the top-level
loop, accumulating `results[treatment] = ate` in iteration order (the Python
dict is modelled as an association list built left to right). -/
def calculate_ate (linreg : LinReg) (logreg : LogReg) (df_train : List Row)
    (Cl : List (List Char)) (treatment_prob : List Char → Option ℚ)
    (treatments : List Char) : List (Char × ℚ) :=
  treatments.foldl
    (fun results t =>
      results ++ [(t, ate_for_treatment linreg logreg df_train Cl
        treatment_prob t)])
    []

/-! ## Error taxonomy and checked variants (spec sections 4.2, 4.6, 7)

The available source cells define no error classes: the notebook delegates
classifier fitting to an external library and performs no explicit arm or
weight checks (the repository README mentions a second notebook that is not
among the available sources). The definitions below model the error contract of the
spec on top of the faithful functions above. -/

/-- The error taxonomy of the spec: `InsufficientDataError` (a matched-pair
subset has an empty arm) and `DegenerateWeightError` (all aggregation weights
for a treatment are zero). -/
inductive WdrlError where
  | insufficientDataError
  | degenerateWeightError
deriving DecidableEq

/-- Modelled from the spec: the `InsufficientDataError` guard of the
Propensity Estimator is missing from the available source (the source calls
the external classifier fit directly); per spec 4.2 it "requires at least one
unit in each arm; fails with an `InsufficientDataError` if either arm is
empty", and otherwise returns the faithful propensity estimates. -/
def calculate_propensity_scores_checked (logreg : LogReg) (X : Mat) (T : Vec) :
    Except WdrlError Vec :=
  if selectArm X T 1 = [] ∨ selectArm X T 0 = [] then
    .error .insufficientDataError
  else
    .ok (calculate_propensity_scores logreg X T)

/-- Modelled from the spec: the zero-denominator guard of the Weighted
Aggregator is missing from the available source; per spec 4.6 it "fails with
a `DegenerateWeightError` if the denominator is zero (no observed combination
containing k has nonzero weight)", and otherwise returns the faithful
weighted scores. -/
def compute_weighted_dr_scores_checked (dr_cols : List (List Char × Vec))
    (treatment_prob : List Char → Option ℚ) (n : Nat) :
    Except WdrlError Vec :=
  let valid_weights := dr_cols.filterMap
    (fun cw => (treatment_prob cw.1).map (fun w => (cw.2, w)))
  if (valid_weights.map Prod.snd).sum = 0 then
    .error .degenerateWeightError
  else
    .ok (compute_weighted_dr_scores dr_cols treatment_prob n)

/-- Modelled from the spec: the per-pair loop of `calculate_ate` lifted over
the spec-modelled error checks. The control flow is the source's: a loop with
no exception handling, so the `Except` monad propagates the first error,
mirroring Python exception unwinding. -/
def y_hat_dr_list_exc (linreg : LinReg) (logreg : LogReg) (df_train : List Row)
    (Cl : List (List Char)) (treatment : Char) :
    Except WdrlError (List Vec) :=
  let X := df_train.map Row.x
  ((W_k Cl treatment).zip (S__k Cl treatment)).mapM (fun ws => do
    let df_subset := df_train.filter (fun r => r.t == ws.1 || r.t == ws.2)
    let X_treated := df_subset.map Row.x
    let y_treated := df_subset.map Row.y
    let T_treated := df_subset.map (fun r => if r.t = ws.1 then (1 : ℚ) else 0)
    let ps ← calculate_propensity_scores_checked logreg X_treated T_treated
    let dr_scores :=
      calculate_doubly_robust_scores linreg X_treated y_treated T_treated ps
    let dr_model := linreg X_treated dr_scores
    pure (X.map dr_model))

/-- Modelled from the spec: the estimation pass of one treatment, with the
spec-modelled error checks in the propensity and aggregation steps. -/
def ate_for_treatment_exc (linreg : LinReg) (logreg : LogReg)
    (df_train : List Row) (Cl : List (List Char))
    (treatment_prob : List Char → Option ℚ) (treatment : Char) :
    Except WdrlError ℚ := do
  let X := df_train.map Row.x
  let ys ← y_hat_dr_list_exc linreg logreg df_train Cl treatment
  let dr_df := (W_k Cl treatment).zip ys
  let agg ← compute_weighted_dr_scores_checked dr_df treatment_prob
    df_train.length
  let ate_model := linreg X agg
  pure (mean (X.map ate_model))

/-- Modelled from the spec: the top-level treatment loop over the
error-capable pipeline, written exactly as the `for` loop of the source — no
`try`/`except` around the body, so an error raised for one treatment
unwinds out of the whole loop. -/
def calculate_ate_exc_go (linreg : LinReg) (logreg : LogReg)
    (df_train : List Row) (Cl : List (List Char))
    (treatment_prob : List Char → Option ℚ) :
    List (Char × ℚ) → List Char → Except WdrlError (List (Char × ℚ))
  | results, [] => .ok results
  | results, t :: ts =>
    match ate_for_treatment_exc linreg logreg df_train Cl treatment_prob t with
    | .error e => .error e
    | .ok v =>
      calculate_ate_exc_go linreg logreg df_train Cl treatment_prob
        (results ++ [(t, v)]) ts

/-- Modelled from the spec: `calculate_ate` over the error-capable pipeline,
starting from an empty results dict. -/
def calculate_ate_exc (linreg : LinReg) (logreg : LogReg) (df_train : List Row)
    (Cl : List (List Char)) (treatment_prob : List Char → Option ℚ)
    (treatments : List Char) : Except WdrlError (List (Char × ℚ)) :=
  calculate_ate_exc_go linreg logreg df_train Cl treatment_prob [] treatments

/-! ## Concrete collaborators and fixtures used by the witnesses -/

/-- A constant-prediction regressor. -/
def lrConst (c : ℚ) : LinReg := fun _X _ys => fun _v => c

/-- A constant-probability classifier. -/
def lgConst (p : ℚ) : LogReg := fun _X _T => fun _v => p

/-- A regressor fitting the intercept-only least-squares model: it predicts
the mean of its training targets for every input. -/
def lrMean : LinReg := fun _X ys => fun _v => mean ys

/-- A two-treatment combination list (a valid `C` for treatments A, B). -/
def CAB : List (List Char) := [['0'], ['A'], ['B'], ['A', 'B']]

/-- Four units, one per combination of `CAB`. -/
def dfAB : List Row :=
  [⟨[1], 1, ['0']⟩, ⟨[1], 2, ['A']⟩, ⟨[1], 3, ['B']⟩, ⟨[1], 4, ['A', 'B']⟩]

/-- A probability table giving weight only to combination `B`: every
combination containing `A` has zero recorded weight. -/
def tpB : List Char → Option ℚ := fun c => if c = ['B'] then some (1/2) else none

/-- A one-unit training set. -/
def dfOne : List Row := [⟨[1], 2, ['A']⟩]

/-- A probability table giving every combination weight 1. -/
def tpOne : List Char → Option ℚ := fun _ => some 1

/-! ## Helper lemmas -/

theorem getD_zipWith (f : ℚ → ℚ → ℚ) (a b : Vec) (i : Nat)
    (ha : i < a.length) (hb : i < b.length) :
    (List.zipWith f a b).getD i 0 = f (a.getD i 0) (b.getD i 0) := by
  rw [List.getD_eq_getElem _ _ (by simp [List.length_zipWith]; omega),
    List.getD_eq_getElem _ _ ha, List.getD_eq_getElem _ _ hb,
    List.getElem_zipWith]

theorem getD_map_vec (f : Vec → ℚ) (l : Mat) (i : Nat) (h : i < l.length) :
    (l.map f).getD i 0 = f (l.getD i []) := by
  rw [List.getD_eq_getElem _ _ (by simpa), List.getD_eq_getElem _ _ h,
    List.getElem_map]

theorem getD_map_q (f : ℚ → ℚ) (l : Vec) (i : Nat) (h : i < l.length) :
    (l.map f).getD i 0 = f (l.getD i 0) := by
  rw [List.getD_eq_getElem _ _ (by simpa), List.getD_eq_getElem _ _ h,
    List.getElem_map]

theorem foldl_vAdd_length (cols : List (Vec × ℚ)) (acc : Vec)
    (h : ∀ c ∈ cols, c.1.length = acc.length) :
    (cols.foldl (fun a c => vAdd a (c.1.map (fun v => v * c.2))) acc).length
      = acc.length := by
  induction cols generalizing acc with
  | nil => rfl
  | cons c cs ih =>
    have hc : c.1.length = acc.length := h c (by simp)
    have hlen : (vAdd acc (c.1.map (fun v => v * c.2))).length = acc.length := by
      simp [vAdd, List.length_zipWith, hc]
    simp only [List.foldl_cons]
    rw [ih _ (fun d hd => by rw [hlen]; exact h d (by simp [hd]))]
    exact hlen

theorem foldl_vAdd_getD (cols : List (Vec × ℚ)) (acc : Vec) (i : Nat)
    (h : ∀ c ∈ cols, c.1.length = acc.length) (hi : i < acc.length) :
    (cols.foldl (fun a c => vAdd a (c.1.map (fun v => v * c.2))) acc).getD i 0
      = acc.getD i 0 + (cols.map (fun c => c.1.getD i 0 * c.2)).sum := by
  induction cols generalizing acc with
  | nil => simp
  | cons c cs ih =>
    have hc : c.1.length = acc.length := h c (by simp)
    have hlen : (vAdd acc (c.1.map (fun v => v * c.2))).length = acc.length := by
      simp [vAdd, List.length_zipWith, hc]
    simp only [List.foldl_cons, List.map_cons, List.sum_cons]
    rw [ih _ (fun d hd => by rw [hlen]; exact h d (by simp [hd])) (by omega)]
    rw [vAdd, getD_zipWith _ _ _ _ hi (by simp [hc]; omega),
      getD_map_q _ _ _ (by omega)]
    ring

theorem valid_snd_sum (dr_cols : List (List Char × Vec))
    (tp : List Char → Option ℚ) :
    (((dr_cols.filterMap
        (fun cw => (tp cw.1).map (fun w => (cw.2, w)))).map Prod.snd).sum)
      = (dr_cols.map (fun cw => match tp cw.1 with
          | some w => w
          | none => 0)).sum := by
  induction dr_cols with
  | nil => rfl
  | cons c cs ih =>
    cases h : tp c.1 <;>
      simp [List.filterMap_cons, h, ih]

theorem valid_num_sum (dr_cols : List (List Char × Vec))
    (tp : List Char → Option ℚ) (g : Vec → ℚ) :
    (((dr_cols.filterMap
        (fun cw => (tp cw.1).map (fun w => (cw.2, w)))).map
          (fun c => g c.1 * c.2)).sum)
      = (dr_cols.map (fun cw => match tp cw.1 with
          | some w => g cw.2 * w
          | none => 0)).sum := by
  induction dr_cols with
  | nil => rfl
  | cons c cs ih =>
    cases h : tp c.1 <;>
      simp [List.filterMap_cons, h, ih]

theorem valid_cols_length (dr_cols : List (List Char × Vec))
    (tp : List Char → Option ℚ) (n : Nat)
    (hlen : ∀ cw ∈ dr_cols, cw.2.length = n) :
    ∀ c ∈ dr_cols.filterMap (fun cw => (tp cw.1).map (fun w => (cw.2, w))),
      c.1.length = (List.replicate n (0 : ℚ)).length := by
  intro c hc
  rw [List.length_replicate]
  obtain ⟨cw, hcw, hmap⟩ := List.mem_filterMap.mp hc
  cases h : tp cw.1 with
  | none => simp [h] at hmap
  | some w =>
    simp [h] at hmap
    rw [← hmap]
    exact hlen cw hcw

theorem compute_weighted_length (dr_cols : List (List Char × Vec))
    (tp : List Char → Option ℚ) (n : Nat)
    (hlen : ∀ cw ∈ dr_cols, cw.2.length = n) :
    (compute_weighted_dr_scores dr_cols tp n).length = n := by
  simp only [compute_weighted_dr_scores, List.length_map]
  rw [foldl_vAdd_length _ _ (valid_cols_length dr_cols tp n hlen)]
  exact List.length_replicate n 0

theorem y_hat_length (linreg : LinReg) (logreg : LogReg) (df_train : List Row)
    (Cl : List (List Char)) (treatment : Char) :
    ∀ v ∈ y_hat_dr_list linreg logreg df_train Cl treatment,
      v.length = df_train.length := by
  intro v hv
  simp only [y_hat_dr_list, List.mem_map] at hv
  obtain ⟨ws, _, rfl⟩ := hv
  simp

theorem aggregated_length (linreg : LinReg) (logreg : LogReg)
    (df_train : List Row) (Cl : List (List Char))
    (tp : List Char → Option ℚ) (treatment : Char) :
    (aggregated_dr_scores linreg logreg df_train Cl tp treatment).length
      = df_train.length := by
  unfold aggregated_dr_scores
  apply compute_weighted_length
  intro cw hcw
  exact y_hat_length linreg logreg df_train Cl treatment cw.2
    (List.of_mem_zip hcw).2

/-- C1: for every treatment `k` of the ordered treatment set, zipping the
enumerated with-`k` combinations against the without-`k` combinations in the
enumeration order of `C` pairs every combination `w` containing `k` with
exactly `w` with `k` removed (re-encoded, so removing `k` from the singleton
`[k]` yields the no-treatment code `'0'`); the two filtered lists have equal
length and no repeats, so the pairing is a bijection, and together they are a
permutation of the full enumerated power set `C`, covering it with no
combination used twice. -/
theorem wdrl_C1 (t : Char) (ht : t ∈ TREATMENTS) :
    (((W_k C t).zip (S__k C t)).all
      (fun p => p.2 == encodeCombo (p.1.erase t))) = true ∧
    (W_k C t).length = (S__k C t).length ∧
    (W_k C t ++ S__k C t).Nodup ∧
    (W_k C t ++ S__k C t).Perm C := by
  fin_cases ht <;> exact ⟨by decide, by decide, by decide, by decide⟩

/-- C1 witness: the pairing facts instantiated at treatment `'A'`. -/
theorem wdrl_C1_witness :
    (((W_k C 'A').zip (S__k C 'A')).all
      (fun p => p.2 == encodeCombo (p.1.erase 'A'))) = true ∧
    (W_k C 'A').length = (S__k C 'A').length ∧
    (W_k C 'A' ++ S__k C 'A').Nodup ∧
    (W_k C 'A' ++ S__k C 'A').Perm C :=
  wdrl_C1 'A' (by decide)

/-- C2: for every matched-pair input with aligned lengths, binary arm
indicator, and propensity entries strictly between 0 and 1,
`calculate_doubly_robust_scores` returns per unit exactly
`(m1_hat + T*(y - m1_hat)/ps) - (m0_hat + (1 - T)*(y - m0_hat)/(1 - ps))`,
where `m0_hat`/`m1_hat` are the arm-wise outcome-model predictions (the
arm-0 and arm-1 fits evaluated at the covariates of the unit), with the stated
sign and normalization. -/
theorem wdrl_C2 (linreg : LinReg) (X : Mat) (y T ps : Vec) (i : Nat)
    (hy : y.length = X.length) (hT : T.length = X.length)
    (hps : ps.length = X.length) (hi : i < X.length)
    (hbin : ∀ v ∈ T, v = 0 ∨ v = 1)
    (hopen : ∀ v ∈ ps, 0 < v ∧ v < 1) :
    (calculate_doubly_robust_scores linreg X y T ps).getD i 0 =
      (linreg (selectArm X T 1) (selectArm y T 1) (X.getD i []) +
        T.getD i 0 * (y.getD i 0 -
          linreg (selectArm X T 1) (selectArm y T 1) (X.getD i [])) /
          ps.getD i 0) -
      (linreg (selectArm X T 0) (selectArm y T 0) (X.getD i []) +
        (1 - T.getD i 0) * (y.getD i 0 -
          linreg (selectArm X T 0) (selectArm y T 0) (X.getD i [])) /
          (1 - ps.getD i 0)) := by
  simp only [calculate_doubly_robust_scores, vAdd, vSub, vMul, vDiv, scalarSub]
  rw [getD_zipWith, getD_zipWith, getD_zipWith, getD_zipWith, getD_zipWith,
    getD_zipWith, getD_zipWith, getD_zipWith, getD_map_vec, getD_map_vec,
    getD_map_q, getD_map_q] <;>
    simp [List.length_zipWith, List.length_map, hy, hT, hps, hi, lt_min_iff]

/-- C2 witness: the doubly robust formula instantiated at a concrete
two-unit matched pair with a constant-zero outcome regressor. -/
theorem wdrl_C2_witness :
    (calculate_doubly_robust_scores (lrConst 0) [[1], [2]] [2, 3] [1, 0]
      [1/2, 1/2]).getD 0 0 =
      (lrConst 0 (selectArm [[1], [2]] [1, 0] 1) (selectArm [2, 3] [1, 0] 1)
          (([[1], [2]] : Mat).getD 0 []) +
        ([1, 0] : Vec).getD 0 0 * (([2, 3] : Vec).getD 0 0 -
          lrConst 0 (selectArm [[1], [2]] [1, 0] 1) (selectArm [2, 3] [1, 0] 1)
            (([[1], [2]] : Mat).getD 0 [])) /
          ([1/2, 1/2] : Vec).getD 0 0) -
      (lrConst 0 (selectArm [[1], [2]] [1, 0] 0) (selectArm [2, 3] [1, 0] 0)
          (([[1], [2]] : Mat).getD 0 []) +
        (1 - ([1, 0] : Vec).getD 0 0) * (([2, 3] : Vec).getD 0 0 -
          lrConst 0 (selectArm [[1], [2]] [1, 0] 0) (selectArm [2, 3] [1, 0] 0)
            (([[1], [2]] : Mat).getD 0 [])) /
          (1 - ([1/2, 1/2] : Vec).getD 0 0)) :=
  wdrl_C2 (lrConst 0) [[1], [2]] [2, 3] [1, 0] [1/2, 1/2] 0
    (by decide) (by decide) (by decide) (by decide)
    (by intro v hv; simp only [List.mem_cons, List.not_mem_nil, or_false] at hv
        rcases hv with rfl | rfl <;> norm_num)
    (by intro v hv; simp only [List.mem_cons, List.not_mem_nil, or_false] at hv
        rcases hv with rfl | rfl <;> norm_num)

/-- C3: per unit, `compute_weighted_dr_scores` equals the sum over columns
that appear in the probability table of `score * P(w)` divided by the sum of
those same `P(w)`; a column whose label is absent from the table contributes
0 to the numerator and 0 to the denominator (it is excluded from both),
stated here as sums over all columns with absent columns contributing
nothing, under the proviso that weights are nonnegative and at least one
column has nonzero weight. -/
theorem wdrl_C3 (dr_cols : List (List Char × Vec))
    (tp : List Char → Option ℚ) (n i : Nat)
    (hi : i < n)
    (hlen : ∀ cw ∈ dr_cols, cw.2.length = n)
    (hnn : ∀ cw ∈ dr_cols, 0 ≤ (tp cw.1).getD 0)
    (hex : ∃ cw ∈ dr_cols, tp cw.1 ≠ none ∧ tp cw.1 ≠ some 0) :
    (compute_weighted_dr_scores dr_cols tp n).getD i 0 =
      (dr_cols.map (fun cw => match tp cw.1 with
        | some w => cw.2.getD i 0 * w
        | none => 0)).sum /
      (dr_cols.map (fun cw => match tp cw.1 with
        | some w => w
        | none => 0)).sum := by
  have hvalid := valid_cols_length dr_cols tp n hlen
  have hir : i < (List.replicate n (0 : ℚ)).length := by
    simpa using hi
  simp only [compute_weighted_dr_scores]
  rw [getD_map_q _ _ _ (by rw [foldl_vAdd_length _ _ hvalid]; simpa using hi),
    foldl_vAdd_getD _ _ _ hvalid hir, valid_snd_sum,
    valid_num_sum dr_cols tp (fun v => v.getD i 0)]
  simp

/-- C3 witness: the weighted average at a concrete two-column frame where
one column is absent from the table. -/
theorem wdrl_C3_witness :
    (compute_weighted_dr_scores [(['A'], [1, 2]), (['A', 'B'], [3, 4])]
      (fun c => if c = ['A'] then some (1/2) else none) 2).getD 0 0 =
      (([(['A'], [1, 2]), (['A', 'B'], [3, 4])] :
          List (List Char × Vec)).map (fun cw =>
        match (if cw.1 = ['A'] then some ((1 : ℚ)/2) else none) with
        | some w => cw.2.getD 0 0 * w
        | none => 0)).sum /
      (([(['A'], [1, 2]), (['A', 'B'], [3, 4])] :
          List (List Char × Vec)).map (fun cw =>
        match (if cw.1 = ['A'] then some ((1 : ℚ)/2) else none) with
        | some w => w
        | none => 0)).sum :=
  wdrl_C3 [(['A'], [1, 2]), (['A', 'B'], [3, 4])]
    (fun c => if c = ['A'] then some (1/2) else none) 2 0
    (by decide) (by decide)
    (by intro cw hcw
        simp only [List.mem_cons, List.not_mem_nil, or_false] at hcw
        rcases hcw with rfl | rfl <;> simp)
    ⟨(['A'], [1, 2]), by simp, by simp, by simp⟩

/-- C4 (code gap): `calculate_propensity_scores` passes the fitted
probabilities of the fitted classifier downstream unmodified — there is no clamping step
— so a classifier output of exactly 0 is used as-is: the returned vector at
the failing input is `[0, 0]`, and 0 does not lie strictly inside (0, 1).
The claim that estimates are clamped away from 0 and 1 before the divisions
is the numerical policy stated by the spec; the source omits it (spec section 9
flags the omission as a correctness gap). -/
theorem wdrl_C4 :
    calculate_propensity_scores (lgConst 0) [[1], [2]] [1, 0] = [0, 0] ∧
    (0 : ℚ) ∉ Set.Ioo (0 : ℚ) 1 :=
  ⟨rfl, by simp⟩

/-- C5: if the binary arm indicator is constant over the matched-pair subset
(one arm has zero units), the spec-modelled propensity estimation step fails
with `InsufficientDataError` and produces no numeric estimate. -/
theorem wdrl_C5 (logreg : LogReg) (X : Mat) (T : Vec)
    (h : (∀ v ∈ T, v = 1) ∨ (∀ v ∈ T, v = 0)) :
    calculate_propensity_scores_checked logreg X T
      = .error .insufficientDataError := by
  unfold calculate_propensity_scores_checked
  rw [if_pos]
  rcases h with h1 | h0
  · right
    simp only [selectArm, List.map_eq_nil_iff, List.filter_eq_nil_iff]
    intro p hp
    have hpT : p.2 ∈ T := (List.of_mem_zip hp).2
    rw [h1 _ hpT]
    norm_num
  · left
    simp only [selectArm, List.map_eq_nil_iff, List.filter_eq_nil_iff]
    intro p hp
    have hpT : p.2 ∈ T := (List.of_mem_zip hp).2
    rw [h0 _ hpT]
    norm_num

/-- C5 witness: a two-unit subset whose arm indicator is constantly 1. -/
theorem wdrl_C5_witness :
    calculate_propensity_scores_checked (lgConst (1/2)) [[1], [2]] [1, 1]
      = .error .insufficientDataError :=
  wdrl_C5 (lgConst (1/2)) [[1], [2]] [1, 1]
    (Or.inl (by
      intro v hv
      simp only [List.mem_cons, List.not_mem_nil, or_false] at hv
      rcases hv with rfl | rfl <;> rfl))

/-- C6: if no column of the frame has nonzero weight in the probability
table (every with-k combination is absent from the table or has weight 0,
so the aggregation denominator is zero), the spec-modelled aggregation fails
with `DegenerateWeightError`. -/
theorem wdrl_C6 (dr_cols : List (List Char × Vec))
    (tp : List Char → Option ℚ) (n : Nat)
    (h : ∀ cw ∈ dr_cols, tp cw.1 = none ∨ tp cw.1 = some 0) :
    compute_weighted_dr_scores_checked dr_cols tp n
      = .error .degenerateWeightError := by
  unfold compute_weighted_dr_scores_checked
  rw [if_pos]
  rw [valid_snd_sum]
  apply List.sum_eq_zero
  intro x hx
  obtain ⟨cw, hcw, hxe⟩ := List.mem_map.mp hx
  rcases h cw hcw with h' | h' <;> rw [h'] at hxe <;> exact hxe.symm

/-- C6 witness: a one-column frame whose label is absent from the table. -/
theorem wdrl_C6_witness :
    compute_weighted_dr_scores_checked [(['A'], [1, 2])] (fun _ => none) 2
      = .error .degenerateWeightError :=
  wdrl_C6 [(['A'], [1, 2])] (fun _ => none) 2 (by intro cw _; left; rfl)

/-- C7 counterexample: at a concrete four-unit dataset over two treatments
where the aggregation weights for treatment A are all zero but the
estimation for treatment B succeeds on its own, the batch run over ['A', 'B'] returns only
the error — it is not a partial mapping carrying the successful ATE for B. -/
theorem wdrl_C7_cex :
    calculate_ate_exc (lrConst 0) (lgConst (1/2)) dfAB CAB tpB ['A', 'B']
      = .error .degenerateWeightError ∧
    ate_for_treatment_exc (lrConst 0) (lgConst (1/2)) dfAB CAB tpB 'B'
      = .ok 0 := by
  refine ⟨rfl, ?_⟩
  have hv : ((W_k CAB 'B').zip
      ([[0, 0, 0, 0], [0, 0, 0, 0]] : List Vec)).filterMap
      (fun cw => (tpB cw.1).map (fun w => (cw.2, w)))
      = [(([0, 0, 0, 0] : Vec), (1/2 : ℚ))] := rfl
  have hcond :
      ((([(([0, 0, 0, 0] : Vec), (1/2 : ℚ))]).map Prod.snd).sum) ≠ 0 := by
    norm_num
  have h2 : compute_weighted_dr_scores_checked
      ((W_k CAB 'B').zip ([[0, 0, 0, 0], [0, 0, 0, 0]] : List Vec)) tpB
      dfAB.length
      = .ok (compute_weighted_dr_scores
          ((W_k CAB 'B').zip ([[0, 0, 0, 0], [0, 0, 0, 0]] : List Vec)) tpB
          dfAB.length) := by
    simp only [compute_weighted_dr_scores_checked]
    rw [hv, if_neg hcond]
  have key : ate_for_treatment_exc (lrConst 0) (lgConst (1/2)) dfAB CAB tpB 'B'
      = (do
          let agg ← compute_weighted_dr_scores_checked
            ((W_k CAB 'B').zip ([[0, 0, 0, 0], [0, 0, 0, 0]] : List Vec)) tpB
            dfAB.length
          pure (mean ((dfAB.map Row.x).map
            (lrConst 0 (dfAB.map Row.x) agg)))) := rfl
  rw [key, h2]
  have hmap : (dfAB.map Row.x).map
      (lrConst 0 (dfAB.map Row.x) (compute_weighted_dr_scores
        ((W_k CAB 'B').zip ([[0, 0, 0, 0], [0, 0, 0, 0]] : List Vec)) tpB
        dfAB.length)) = [0, 0, 0, 0] := rfl
  have hmean : mean ([0, 0, 0, 0] : Vec) = 0 := by norm_num [mean]
  show Except.ok (mean ((dfAB.map Row.x).map
    (lrConst 0 (dfAB.map Row.x) (compute_weighted_dr_scores
      ((W_k CAB 'B').zip ([[0, 0, 0, 0], [0, 0, 0, 0]] : List Vec)) tpB
      dfAB.length)))) = Except.ok 0
  rw [hmap, hmean]

/-- C7 (amended): when the estimation of one treatment raises an error, the
source loop — which has no per-treatment exception handling — propagates
that error and aborts the remaining treatments: the batch result is the
error alone, not a partial mapping of successes. -/
theorem wdrl_C7_amended (linreg : LinReg) (logreg : LogReg)
    (df_train : List Row) (Cl : List (List Char))
    (tp : List Char → Option ℚ) (ts₁ ts₂ : List Char) (t : Char)
    (e : WdrlError)
    (hok : ∀ t' ∈ ts₁,
      (ate_for_treatment_exc linreg logreg df_train Cl tp t').isOk = true)
    (herr : ate_for_treatment_exc linreg logreg df_train Cl tp t = .error e) :
    calculate_ate_exc linreg logreg df_train Cl tp (ts₁ ++ t :: ts₂)
      = .error e := by
  unfold calculate_ate_exc
  have main : ∀ (l : List Char) (init : List (Char × ℚ)),
      (∀ t' ∈ l,
        (ate_for_treatment_exc linreg logreg df_train Cl tp t').isOk = true) →
      calculate_ate_exc_go linreg logreg df_train Cl tp init (l ++ t :: ts₂)
        = .error e := by
    intro l
    induction l with
    | nil =>
      intro init _
      simp only [List.nil_append, calculate_ate_exc_go, herr]
    | cons s ss ih =>
      intro init hok'
      have hs := hok' s (by simp)
      obtain ⟨v, hv⟩ : ∃ v,
          ate_for_treatment_exc linreg logreg df_train Cl tp s = .ok v := by
        cases hval : ate_for_treatment_exc linreg logreg df_train Cl tp s with
        | ok v => exact ⟨v, rfl⟩
        | error e' => rw [hval] at hs; simp [Except.isOk, Except.toBool] at hs
      simp only [List.cons_append, calculate_ate_exc_go, hv]
      exact ih (init ++ [(s, v)])
        (fun t' ht' => hok' t' (List.mem_cons_of_mem _ ht'))
  exact main ts₁ [] hok

/-- C7 witness for the amended claim: the concrete batch ['A', 'B'] aborts
with the error raised for treatment A. -/
theorem wdrl_C7_witness :
    calculate_ate_exc (lrConst 0) (lgConst (1/2)) dfAB CAB tpB ['A', 'B']
      = .error .degenerateWeightError :=
  wdrl_C7_amended (lrConst 0) (lgConst (1/2)) dfAB CAB tpB [] ['B'] 'A'
    .degenerateWeightError (by intro t' ht'; simp at ht') rfl

/-! ## Loop/lookup helpers for the top-level `calculate_ate` -/

theorem calculate_ate_eq (linreg : LinReg) (logreg : LogReg)
    (df_train : List Row) (Cl : List (List Char))
    (tp : List Char → Option ℚ) (ts : List Char) :
    calculate_ate linreg logreg df_train Cl tp ts
      = ts.map (fun t => (t, ate_for_treatment linreg logreg df_train Cl tp t)) := by
  have main : ∀ (l : List Char) (init : List (Char × ℚ)),
      l.foldl (fun results t =>
        results ++ [(t, ate_for_treatment linreg logreg df_train Cl tp t)]) init
      = init ++ l.map
          (fun t => (t, ate_for_treatment linreg logreg df_train Cl tp t)) := by
    intro l
    induction l with
    | nil => intro init; simp
    | cons t l ih => intro init; simp [ih]
  simpa [calculate_ate] using main ts []

theorem lookup_map_self {β : Type} (f : Char → β) :
    ∀ (ts : List Char) (t : Char), t ∈ ts →
      (ts.map (fun s => (s, f s))).lookup t = some (f t) := by
  intro ts
  induction ts with
  | nil => intro t ht; simp at ht
  | cons s ss ih =>
    intro t ht
    by_cases h : t = s
    · subst h
      simp [List.lookup]
    · have hmem : t ∈ ss := by
        rcases List.mem_cons.mp ht with h' | h'
        · exact absurd h' h
        · exact h'
      have hb : (t == s) = false := by simp [h]
      simp [List.lookup, hb, ih t hmem]

theorem lookup_map_self_none {β : Type} (f : Char → β) :
    ∀ (ts : List Char) (t : Char), t ∉ ts →
      (ts.map (fun s => (s, f s))).lookup t = none := by
  intro ts
  induction ts with
  | nil => intro t _; rfl
  | cons s ss ih =>
    intro t ht
    have h : t ≠ s := fun he => ht (he ▸ List.mem_cons_self s ss)
    have hmem : t ∉ ss := fun hm => ht (List.mem_cons_of_mem _ hm)
    have hb : (t == s) = false := by simp [h]
    simp [List.lookup, hb, ih t hmem]

/-- C8: for every treatment in the input list, `calculate_ate` records
exactly one entry — the keys of the mapping are exactly the input treatments, with
no repeats when the input is a set (no duplicate labels) — and the recorded ATE of each
treatment is the mean, over the entire training population, of
the fitted values of one final regression of the aggregated DR score of that
treatment on the full covariate matrix. -/
theorem wdrl_C8 (linreg : LinReg) (logreg : LogReg) (df_train : List Row)
    (Cl : List (List Char)) (tp : List Char → Option ℚ) (ts : List Char)
    (hnd : ts.Nodup) :
    (calculate_ate linreg logreg df_train Cl tp ts).map Prod.fst = ts ∧
    ((calculate_ate linreg logreg df_train Cl tp ts).map Prod.fst).Nodup ∧
    ∀ t ∈ ts, (calculate_ate linreg logreg df_train Cl tp ts).lookup t
      = some (mean ((df_train.map Row.x).map
          (linreg (df_train.map Row.x)
            (aggregated_dr_scores linreg logreg df_train Cl tp t)))) := by
  have hcomp : (Prod.fst ∘
      fun t => (t, ate_for_treatment linreg logreg df_train Cl tp t))
      = id := rfl
  refine ⟨?_, ?_, ?_⟩
  · rw [calculate_ate_eq, List.map_map, hcomp, List.map_id]
  · rw [calculate_ate_eq, List.map_map, hcomp, List.map_id]
    exact hnd
  · intro t ht
    rw [calculate_ate_eq,
      lookup_map_self (fun t => ate_for_treatment linreg logreg df_train Cl tp t)
        ts t ht]
    rfl

/-- C8 witness: the keys and the recorded value at the concrete batch. -/
theorem wdrl_C8_witness :
    (calculate_ate (lrConst 0) (lgConst (1/2)) dfAB CAB tpB
      ['A', 'B']).lookup 'B'
      = some (mean ((dfAB.map Row.x).map
          (lrConst 0 (dfAB.map Row.x)
            (aggregated_dr_scores (lrConst 0) (lgConst (1/2)) dfAB CAB tpB
              'B')))) :=
  (wdrl_C8 (lrConst 0) (lgConst (1/2)) dfAB CAB tpB ['A', 'B']
    (by decide)).2.2 'B' (by decide)

/-- C9: treatments are processed independently — for any permutation of the
input treatment list, `calculate_ate` on the same dataset, combination list,
and probability table gives the same looked-up ATE for every treatment
label. -/
theorem wdrl_C9 (linreg : LinReg) (logreg : LogReg) (df_train : List Row)
    (Cl : List (List Char)) (tp : List Char → Option ℚ)
    (ts₁ ts₂ : List Char) (hperm : ts₁.Perm ts₂) (t : Char) :
    (calculate_ate linreg logreg df_train Cl tp ts₁).lookup t
      = (calculate_ate linreg logreg df_train Cl tp ts₂).lookup t := by
  rw [calculate_ate_eq, calculate_ate_eq]
  by_cases h : t ∈ ts₁
  · rw [lookup_map_self _ ts₁ t h,
      lookup_map_self _ ts₂ t (hperm.mem_iff.mp h)]
  · rw [lookup_map_self_none _ ts₁ t h,
      lookup_map_self_none _ ts₂ t (fun hc => h (hperm.mem_iff.mpr hc))]

/-- C9 witness: swapping the two treatments of the concrete batch leaves
the looked-up result for treatment A unchanged. -/
theorem wdrl_C9_witness :
    (calculate_ate (lrConst 0) (lgConst (1/2)) dfAB CAB tpB
      ['A', 'B']).lookup 'A'
      = (calculate_ate (lrConst 0) (lgConst (1/2)) dfAB CAB tpB
          ['B', 'A']).lookup 'A' :=
  wdrl_C9 (lrConst 0) (lgConst (1/2)) dfAB CAB tpB ['A', 'B'] ['B', 'A']
    (by decide) 'A'

/-! ## Ordinary-least-squares facts for the final regression (C10) -/

theorem sum_sq_shift (rs : List ℚ) (d : ℚ) :
    (rs.map (fun r => (r - d) ^ 2)).sum
      = (rs.map (fun r => r ^ 2)).sum - 2 * d * rs.sum + rs.length * d ^ 2 := by
  induction rs with
  | nil => simp
  | cons r rs ih =>
    simp only [List.map_cons, List.sum_cons, List.length_cons, ih]
    push_cast
    ring

theorem SSE_shift (X : Mat) (ys : Vec) (w : Vec) (b d : ℚ) :
    SSE X ys w (b + d)
      = SSE X ys w b
        - 2 * d * ((X.zip ys).map (fun p => p.2 - affinePred w b p.1)).sum
        + (X.zip ys).length * d ^ 2 := by
  have h1 : SSE X ys w (b + d)
      = (((X.zip ys).map (fun p => p.2 - affinePred w b p.1)).map
          (fun r => (r - d) ^ 2)).sum := by
    simp only [SSE, List.map_map]
    congr 1
    apply List.map_congr_left
    intro p _
    simp only [Function.comp, affinePred]
    ring
  rw [h1, sum_sq_shift]
  simp [SSE, List.map_map, Function.comp_def]

theorem residual_sum_zero (X : Mat) (ys : Vec) (w : Vec) (b : ℚ)
    (hmin : ∀ b', SSE X ys w b ≤ SSE X ys w b')
    (hm : 0 < (X.zip ys).length) :
    ((X.zip ys).map (fun p => p.2 - affinePred w b p.1)).sum = 0 := by
  set S := ((X.zip ys).map (fun p => p.2 - affinePred w b p.1)).sum with hS
  set m : ℚ := ((X.zip ys).length : ℚ) with hmdef
  have hm' : (0 : ℚ) < m := by
    rw [hmdef]
    exact_mod_cast hm
  have h := hmin (b + S / m)
  rw [SSE_shift] at h
  have h2 : 2 * (S / m) * S ≤ m * (S / m) ^ 2 := by linarith
  have h3 : m * (S / m) ^ 2 = S ^ 2 / m := by
    field_simp
    ring
  have h4 : 2 * (S / m) * S = 2 * (S ^ 2) / m := by
    field_simp
    ring
  rw [h3, h4] at h2
  have h4b : 2 * S ^ 2 / m = 2 * (S ^ 2 / m) := by ring
  rw [h4b] at h2
  have h5 : S ^ 2 / m ≤ 0 := by linarith
  have h6 : 0 ≤ S ^ 2 / m := div_nonneg (sq_nonneg S) (le_of_lt hm')
  have h8 : S ^ 2 / m = 0 := le_antisymm h5 h6
  field_simp at h8
  exact h8

theorem sum_zip_sub (X : Mat) (ys : Vec) (f : Vec → ℚ)
    (h : ys.length = X.length) :
    ((X.zip ys).map (fun p => p.2 - f p.1)).sum = ys.sum - (X.map f).sum := by
  induction X generalizing ys with
  | nil =>
    cases ys with
    | nil => simp
    | cons y ys' => simp at h
  | cons x xs ih =>
    cases ys with
    | nil => simp at h
    | cons y ys' =>
      simp only [List.zip_cons_cons, List.map_cons, List.sum_cons]
      rw [ih ys' (by simpa using h)]
      ring

theorem mean_fitted_eq (X : Mat) (ys : Vec) (w : Vec) (b : ℚ)
    (hlen : ys.length = X.length) (hne : X ≠ [])
    (hmin : ∀ b', SSE X ys w b ≤ SSE X ys w b') :
    mean (X.map (affinePred w b)) = mean ys := by
  have hm : 0 < (X.zip ys).length := by
    rw [List.length_zip, hlen, min_self]
    exact List.length_pos.mpr hne
  have h0 := residual_sum_zero X ys w b hmin hm
  rw [sum_zip_sub X ys _ hlen] at h0
  have hsum : (X.map (affinePred w b)).sum = ys.sum := by linarith
  simp [mean, List.length_map, hlen, hsum]

/-- C10: because the final per-treatment regression is a least-squares fit
with an intercept evaluated on exactly the covariate matrix it was fitted on,
the mean of its fitted values equals the mean of its targets: whenever the
fit returned by the regressor on the full covariate matrix and the aggregated DR score is
an affine predictor whose intercept minimises the sum of squared errors, the
ATE reported by the loop body equals the plain arithmetic mean of the
aggregated DR score over the training population — the final regression step
does not change the reported value. -/
theorem wdrl_C10 (linreg : LinReg) (logreg : LogReg) (df_train : List Row)
    (Cl : List (List Char)) (tp : List Char → Option ℚ) (t : Char)
    (w : Vec) (b : ℚ)
    (hne : df_train ≠ [])
    (hfit : linreg (df_train.map Row.x)
        (aggregated_dr_scores linreg logreg df_train Cl tp t) = affinePred w b)
    (hmin : ∀ b', SSE (df_train.map Row.x)
        (aggregated_dr_scores linreg logreg df_train Cl tp t) w b
      ≤ SSE (df_train.map Row.x)
        (aggregated_dr_scores linreg logreg df_train Cl tp t) w b') :
    ate_for_treatment linreg logreg df_train Cl tp t
      = mean (aggregated_dr_scores linreg logreg df_train Cl tp t) := by
  have hlen : (aggregated_dr_scores linreg logreg df_train Cl tp t).length
      = (df_train.map Row.x).length := by
    rw [aggregated_length, List.length_map]
  have hne' : df_train.map Row.x ≠ [] := by
    simpa using hne
  show mean ((df_train.map Row.x).map
    (linreg (df_train.map Row.x)
      (aggregated_dr_scores linreg logreg df_train Cl tp t)))
    = mean (aggregated_dr_scores linreg logreg df_train Cl tp t)
  rw [hfit]
  exact mean_fitted_eq _ _ _ _ hlen hne' hmin

/-- C10 witness: on a one-unit dataset with the mean-fitting regressor, the
reported ATE is the mean of the aggregated DR score. -/
theorem wdrl_C10_witness :
    ate_for_treatment lrMean (lgConst (1/2)) dfOne C tpOne 'A'
      = mean (aggregated_dr_scores lrMean (lgConst (1/2)) dfOne C tpOne 'A') := by
  obtain ⟨a, ha⟩ : ∃ a,
      aggregated_dr_scores lrMean (lgConst (1/2)) dfOne C tpOne 'A' = [a] := by
    apply List.length_eq_one.mp
    rw [aggregated_length]
    rfl
  apply wdrl_C10 lrMean (lgConst (1/2)) dfOne C tpOne 'A' []
    (mean (aggregated_dr_scores lrMean (lgConst (1/2)) dfOne C tpOne 'A'))
  · simp [dfOne]
  · funext v
    simp [lrMean, affinePred, dot]
  · intro b'
    rw [ha]
    norm_num [dfOne, SSE, affinePred, dot, mean]
    nlinarith [sq_nonneg (a - b')]
